import Mathlib

/-
Verification of the limit-order-book level aggregator in `orderbook.py` and
`run_data.py`.  Python floats are modelled as exact rationals: every operation
the book performs on prices and quantities (comparison with 0, use as a dict
key, sorting) is exact on IEEE doubles, so theorems quantified over ℚ
specialise faithfully to the float values the program actually handles.  The
one rounding operation of the program, the subtraction in `get_spread`, is
modelled as exact rational subtraction.  A Python `OrderedDict[float, float]`
is modelled as an association list in iteration order; dict states never hold
a key twice, which appears below as `Nodup` hypotheses on the key list.
-/

namespace FxArb

/-- Iteration order of the keys of a price→quantity mapping. -/
def keys (m : List (ℚ × ℚ)) : List ℚ := m.map Prod.fst

/-- Dict lookup `m[p]`: the value at the first entry whose key is `p`. -/
def lookupKey : List (ℚ × ℚ) → ℚ → Option ℚ
  | [], _ => none
  | (k, v) :: rest, p => if k = p then some v else lookupKey rest p

/-- Dict assignment `m[p] = q`: overwrite in place when the key exists,
append a new entry otherwise. -/
def upsert : List (ℚ × ℚ) → ℚ → ℚ → List (ℚ × ℚ)
  | [], p, q => [(p, q)]
  | (k, v) :: rest, p, q => if k = p then (k, q) :: rest else (k, v) :: upsert rest p q

/-- Dict deletion `del m[p]`: drop the (unique, in dict states) entry with key `p`. -/
def eraseKey : List (ℚ × ℚ) → ℚ → List (ℚ × ℚ)
  | [], _ => []
  | (k, v) :: rest, p => if k = p then rest else (k, v) :: eraseKey rest p

/-- Comparison used by `sorted(self.bids.items(), reverse=True)`: on the
duplicate-free key lists a dict yields, sorting pairs in reverse lexicographic
order is sorting by price descending. -/
def keyGE (a b : ℚ × ℚ) : Prop := b.1 ≤ a.1

/-- Comparison used by `sorted(self.offers.items())`: price ascending. -/
def keyLE (a b : ℚ × ℚ) : Prop := a.1 ≤ b.1

instance : DecidableRel keyGE := fun a b => inferInstanceAs (Decidable (b.1 ≤ a.1))

instance : DecidableRel keyLE := fun a b => inferInstanceAs (Decidable (a.1 ≤ b.1))

instance : IsTotal (ℚ × ℚ) keyGE := ⟨fun a b => le_total b.1 a.1⟩

instance : IsTrans (ℚ × ℚ) keyGE := ⟨fun _ _ _ h1 h2 => le_trans h2 h1⟩

instance : IsTotal (ℚ × ℚ) keyLE := ⟨fun a b => le_total a.1 b.1⟩

instance : IsTrans (ℚ × ℚ) keyLE := ⟨fun _ _ _ h1 h2 => le_trans h1 h2⟩

/-- Rebuild of the bid side, price descending (`orderbook.py` line 51). -/
def sortDesc (m : List (ℚ × ℚ)) : List (ℚ × ℚ) := List.insertionSort keyGE m

/-- Rebuild of the offer side, price ascending (`orderbook.py` line 75). -/
def sortAsc (m : List (ℚ × ℚ)) : List (ℚ × ℚ) := List.insertionSort keyLE m

/-- State of `OrderBook` (`orderbook.py`): security id, the two sides in
iteration order, and the last-update timestamp (timestamps modelled as ℚ). -/
structure OrderBook where
  security : String
  bids : List (ℚ × ℚ)
  offers : List (ℚ × ℚ)
  last_update_time : Option ℚ
deriving DecidableEq

/-- `OrderBook.__init__`: empty sides, no timestamp. -/
def OrderBook.init (security : String) : OrderBook :=
  { security := security, bids := [], offers := [], last_update_time := none }

/-- One iteration of the reconciliation loop body shared by `update_bids` and
`update_offers` (`orderbook.py` lines 42-48 and 66-72): upsert on positive
price and quantity, guarded delete on positive price and zero quantity,
otherwise no change. -/
def applyLevel (m : List (ℚ × ℚ)) : ℚ × ℚ → List (ℚ × ℚ)
  | (price, qty) =>
    if 0 < price ∧ 0 < qty then upsert m price qty
    else if 0 < price ∧ qty = 0 then
      (if price ∈ keys m then eraseKey m price else m)
    else m

/-- `OrderBook.update_bids`: all-zero-price guard, per-index reconciliation
over the zipped pairs, then full re-sort descending. -/
def OrderBook.update_bids (ob : OrderBook) (prices quantities : List ℚ) : OrderBook :=
  if ∀ p ∈ prices, p = 0 then ob
  else { ob with bids := sortDesc (List.foldl applyLevel ob.bids (prices.zip quantities)) }

/-- `OrderBook.update_offers`: same logic on the offer side, re-sort ascending. -/
def OrderBook.update_offers (ob : OrderBook) (prices quantities : List ℚ) : OrderBook :=
  if ∀ p ∈ prices, p = 0 then ob
  else { ob with offers := sortAsc (List.foldl applyLevel ob.offers (prices.zip quantities)) }

/-- `OrderBook.get_best_bid`: first entry of the bid side, `None` when empty.
In the source the first key is looked up in the dict; looking up the first key
returns the first entry's value, so this is the head of the side. -/
def OrderBook.get_best_bid (ob : OrderBook) : Option (ℚ × ℚ) := ob.bids.head?

/-- `OrderBook.get_best_offer`: first entry of the offer side, `None` when empty. -/
def OrderBook.get_best_offer (ob : OrderBook) : Option (ℚ × ℚ) := ob.offers.head?

/-- `OrderBook.get_spread`: best offer price minus best bid price, `None` when
either side is empty. -/
def OrderBook.get_spread (ob : OrderBook) : Option ℚ :=
  match ob.get_best_bid, ob.get_best_offer with
  | some bb, some bo => some (bo.1 - bb.1)
  | _, _ => none

/-- One snapshot record as `update_order_book` (`run_data.py`) reads it: each
required field either extracts and coerces to a number (`some`) or fails
(`none`, a raised KeyError/ValueError in the source). -/
structure Record where
  bi_price : Fin 5 → Option ℚ
  bi_qty : Fin 5 → Option ℚ
  of_price : Fin 5 → Option ℚ
  of_qty : Fin 5 → Option ℚ
  time : Option ℚ

/-- Extraction of the five fields of one group, failing if any field fails
(`run_data.py` lines 42-59: the five `float(row[...])` calls of one list). -/
def extract5 (f : Fin 5 → Option ℚ) : Option (List ℚ) :=
  match f 0, f 1, f 2, f 3, f 4 with
  | some a, some b, some c, some d, some e => some [a, b, c, d, e]
  | _, _, _, _, _ => none

/-- `update_order_book` (`run_data.py` lines 33-69).  The Boolean is `true`
when a field extraction raised; the returned book is the state observable
after the call (the source mutates in place, so a raise after the side
updates leaves them applied).  The four numeric groups are all extracted
before any mutation; `row['time']` is read only after both side updates. -/
def update_order_book (r : Record) (ob : OrderBook) : OrderBook × Bool :=
  match extract5 r.bi_price, extract5 r.bi_qty, extract5 r.of_price, extract5 r.of_qty with
  | some bp, some bq, some ofp, some ofq =>
    let ob2 := (ob.update_bids bp bq).update_offers ofp ofq
    match r.time with
    | some t => ({ ob2 with last_update_time := some t }, false)
    | none => (ob2, true)
  | _, _, _, _ => (ob, true)

/-- One call against an order book, for quantifying over call sequences. -/
inductive BookOp where
  | updBids (prices quantities : List ℚ)
  | updOffers (prices quantities : List ℚ)

/-- Application of one call. -/
def applyOp (ob : OrderBook) : BookOp → OrderBook
  | .updBids ps qs => ob.update_bids ps qs
  | .updOffers ps qs => ob.update_offers ps qs

/-- Application of a sequence of calls in order. -/
def applyOps (ob : OrderBook) (ops : List BookOp) : OrderBook :=
  ops.foldl applyOp ob

/-- Modelled from the claim's words (C1): one index of the reconciliation,
acting on the side viewed as a partial map from price to quantity.  Positive
price and quantity set the level, positive price with zero quantity remove it
(no-op when absent), a zero price is skipped regardless of quantity. -/
def specReconcileStep (f : ℚ → Option ℚ) : ℚ × ℚ → ℚ → Option ℚ
  | (price, qty) => fun x =>
    if 0 < price ∧ 0 < qty then (if x = price then some qty else f x)
    else if 0 < price ∧ qty = 0 then (if x = price then none else f x)
    else f x

/-- Invariant of the bid side: sorted by price descending, no duplicate price. -/
def SideInvDesc (m : List (ℚ × ℚ)) : Prop := m.Sorted keyGE ∧ (keys m).Nodup

/-- Invariant of the offer side: sorted by price ascending, no duplicate price. -/
def SideInvAsc (m : List (ℚ × ℚ)) : Prop := m.Sorted keyLE ∧ (keys m).Nodup

/-- A concrete populated book used to instantiate hypotheses. -/
def sampleBook : OrderBook :=
  { security := "EURUSD", bids := [(2, 5)], offers := [(3, 7)], last_update_time := none }

/-- A concrete record all of whose fields are present, numeric and zero apart
from the timestamp. -/
def recZero : Record where
  bi_price := fun _ => some 0
  bi_qty := fun _ => some 0
  of_price := fun _ => some 0
  of_qty := fun _ => some 0
  time := some 7

/-- A concrete record whose twenty numeric fields extract but whose time
field is missing. -/
def recNoTime : Record where
  bi_price := fun i => if i.1 = 0 then some 1 else some 0
  bi_qty := fun i => if i.1 = 0 then some 2 else some 0
  of_price := fun i => if i.1 = 0 then some 3 else some 0
  of_qty := fun i => if i.1 = 0 then some 4 else some 0
  time := none

theorem lookupKey_upsert (m : List (ℚ × ℚ)) (p q x : ℚ) :
    lookupKey (upsert m p q) x = if x = p then some q else lookupKey m x := by
  induction m with
  | nil =>
    rcases eq_or_ne x p with h | h
    · simp [upsert, lookupKey, h]
    · simp [upsert, lookupKey, h, Ne.symm h]
  | cons kv rest ih =>
    obtain ⟨k, v⟩ := kv
    by_cases hk : k = p
    · subst hk
      rcases eq_or_ne x k with hx | hx
      · simp [upsert, lookupKey, hx]
      · simp [upsert, lookupKey, hx, Ne.symm hx]
    · rcases eq_or_ne k x with hx | hx
      · subst hx
        simp [upsert, hk, lookupKey, Ne.symm hk]
      · simp [upsert, hk, lookupKey, hx, ih]

theorem keys_cons (k v : ℚ) (rest : List (ℚ × ℚ)) :
    keys ((k, v) :: rest) = k :: keys rest := rfl

theorem mem_keys_upsert (m : List (ℚ × ℚ)) (p q x : ℚ) :
    x ∈ keys (upsert m p q) ↔ x = p ∨ x ∈ keys m := by
  induction m with
  | nil => simp [upsert, keys]
  | cons kv rest ih =>
    obtain ⟨k, v⟩ := kv
    by_cases hk : k = p
    · subst hk
      rw [upsert, if_pos rfl, keys_cons, keys_cons]
      simp only [List.mem_cons]
      tauto
    · simp only [upsert, if_neg hk, keys_cons, List.mem_cons, ih]
      tauto

theorem nodup_keys_upsert (m : List (ℚ × ℚ)) (p q : ℚ) (h : (keys m).Nodup) :
    (keys (upsert m p q)).Nodup := by
  induction m with
  | nil => simp [upsert, keys]
  | cons kv rest ih =>
    obtain ⟨k, v⟩ := kv
    rw [keys_cons, List.nodup_cons] at h
    by_cases hk : k = p
    · subst hk
      rw [upsert, if_pos rfl, keys_cons, List.nodup_cons]
      exact h
    · rw [upsert, if_neg hk, keys_cons, List.nodup_cons]
      refine ⟨fun hm => ?_, ih h.2⟩
      rcases (mem_keys_upsert rest p q k).mp hm with heq | hmem
      · exact hk heq
      · exact h.1 hmem

theorem eraseKey_sublist (m : List (ℚ × ℚ)) (p : ℚ) : List.Sublist (eraseKey m p) m := by
  induction m with
  | nil => simp [eraseKey]
  | cons kv rest ih =>
    obtain ⟨k, v⟩ := kv
    by_cases hk : k = p
    · rw [eraseKey, if_pos hk]
      exact List.sublist_cons_self _ _
    · rw [eraseKey, if_neg hk]
      exact ih.cons₂ _

theorem nodup_keys_eraseKey (m : List (ℚ × ℚ)) (p : ℚ) (h : (keys m).Nodup) :
    (keys (eraseKey m p)).Nodup :=
  h.sublist ((eraseKey_sublist m p).map Prod.fst)

theorem not_mem_keys_eraseKey (m : List (ℚ × ℚ)) (p : ℚ) (h : (keys m).Nodup) :
    p ∉ keys (eraseKey m p) := by
  induction m with
  | nil => simp [eraseKey, keys]
  | cons kv rest ih =>
    obtain ⟨k, v⟩ := kv
    rw [keys_cons, List.nodup_cons] at h
    by_cases hk : k = p
    · rw [eraseKey, if_pos hk]
      exact hk ▸ h.1
    · rw [eraseKey, if_neg hk, keys_cons, List.mem_cons]
      rintro (heq | hmem)
      · exact hk heq.symm
      · exact ih h.2 hmem

theorem lookupKey_eraseKey_ne (m : List (ℚ × ℚ)) (p x : ℚ) (hx : x ≠ p) :
    lookupKey (eraseKey m p) x = lookupKey m x := by
  induction m with
  | nil => simp [eraseKey]
  | cons kv rest ih =>
    obtain ⟨k, v⟩ := kv
    by_cases hk : k = p
    · rw [eraseKey, if_pos hk, lookupKey, if_neg (fun h : k = x => hx (h ▸ hk ▸ rfl))]
    · rw [eraseKey, if_neg hk, lookupKey, lookupKey]
      rcases eq_or_ne k x with hx2 | hx2
      · rw [if_pos hx2, if_pos hx2]
      · rw [if_neg hx2, if_neg hx2, ih]

theorem lookupKey_eq_none (m : List (ℚ × ℚ)) (x : ℚ) :
    lookupKey m x = none ↔ x ∉ keys m := by
  induction m with
  | nil => simp [lookupKey, keys]
  | cons kv rest ih =>
    obtain ⟨k, v⟩ := kv
    rw [keys_cons, lookupKey]
    by_cases hk : k = x
    · simp [hk]
    · simp only [if_neg hk, ih, List.mem_cons]
      constructor
      · rintro hmem (heq | hm)
        · exact hk heq.symm
        · exact hmem hm
      · intro hcon hm
        exact hcon (Or.inr hm)

theorem lookupKey_mem (m : List (ℚ × ℚ)) (x v : ℚ) (h : lookupKey m x = some v) :
    (x, v) ∈ m := by
  induction m with
  | nil => simp [lookupKey] at h
  | cons kv rest ih =>
    obtain ⟨k, w⟩ := kv
    by_cases hk : k = x
    · subst hk
      simp [lookupKey] at h
      simp [h]
    · simp [lookupKey, hk] at h
      simp [ih h]

theorem mem_lookupKey (m : List (ℚ × ℚ)) (x v : ℚ) (h : (keys m).Nodup)
    (hm : (x, v) ∈ m) : lookupKey m x = some v := by
  induction m with
  | nil => simp at hm
  | cons kv rest ih =>
    obtain ⟨k, w⟩ := kv
    rw [keys_cons, List.nodup_cons] at h
    rcases List.mem_cons.mp hm with heq | htail
    · have h1 : x = k := congrArg Prod.fst heq
      have h2 : v = w := congrArg Prod.snd heq
      subst h1
      subst h2
      simp [lookupKey]
    · by_cases hk : k = x
      · subst hk
        exact absurd (List.mem_map_of_mem Prod.fst htail) h.1
      · rw [lookupKey, if_neg hk]
        exact ih h.2 htail

theorem lookupKey_perm {m m' : List (ℚ × ℚ)} (hp : List.Perm m m') (h : (keys m).Nodup)
    (x : ℚ) : lookupKey m x = lookupKey m' x := by
  have hkeys : List.Perm (keys m) (keys m') := hp.map Prod.fst
  match hv : lookupKey m x with
  | none =>
    have := (lookupKey_eq_none m x).mp hv
    exact ((lookupKey_eq_none m' x).mpr (fun hm => this (hkeys.mem_iff.mpr hm))).symm
  | some v =>
    exact (mem_lookupKey m' x v (hkeys.nodup_iff.mp h)
      (hp.mem_iff.mp (lookupKey_mem m x v hv))).symm

theorem nodup_keys_applyLevel (m : List (ℚ × ℚ)) (pq : ℚ × ℚ) (h : (keys m).Nodup) :
    (keys (applyLevel m pq)).Nodup := by
  obtain ⟨p, q⟩ := pq
  rw [applyLevel]
  split
  · exact nodup_keys_upsert _ _ _ h
  · split
    · split
      · exact nodup_keys_eraseKey _ _ h
      · exact h
    · exact h

theorem lookupKey_applyLevel (m : List (ℚ × ℚ)) (pq : ℚ × ℚ) (h : (keys m).Nodup)
    (x : ℚ) : lookupKey (applyLevel m pq) x = specReconcileStep (lookupKey m) pq x := by
  obtain ⟨p, q⟩ := pq
  rw [applyLevel, specReconcileStep]
  beta_reduce
  by_cases h1 : 0 < p ∧ 0 < q
  · rw [if_pos h1, if_pos h1, lookupKey_upsert]
  · rw [if_neg h1, if_neg h1]
    by_cases h2 : 0 < p ∧ q = 0
    · rw [if_pos h2, if_pos h2]
      by_cases hmem : p ∈ keys m
      · rw [if_pos hmem]
        rcases eq_or_ne x p with hx | hx
        · subst hx
          rw [if_pos rfl]
          exact (lookupKey_eq_none _ _).mpr (not_mem_keys_eraseKey m x h)
        · rw [if_neg hx]
          exact lookupKey_eraseKey_ne m p x hx
      · rw [if_neg hmem]
        rcases eq_or_ne x p with hx | hx
        · subst hx
          rw [if_pos rfl]
          exact (lookupKey_eq_none _ _).mpr hmem
        · rw [if_neg hx]
    · rw [if_neg h2, if_neg h2]

theorem nodup_keys_foldl (l : List (ℚ × ℚ)) (m : List (ℚ × ℚ)) (h : (keys m).Nodup) :
    (keys (List.foldl applyLevel m l)).Nodup := by
  induction l generalizing m with
  | nil => exact h
  | cons pq rest ih => exact ih _ (nodup_keys_applyLevel m pq h)

theorem lookupKey_foldl (l : List (ℚ × ℚ)) (m : List (ℚ × ℚ)) (h : (keys m).Nodup)
    (x : ℚ) : lookupKey (List.foldl applyLevel m l) x =
      List.foldl specReconcileStep (lookupKey m) l x := by
  induction l generalizing m with
  | nil => rfl
  | cons pq rest ih =>
    have hstep : lookupKey (applyLevel m pq) = specReconcileStep (lookupKey m) pq :=
      funext (lookupKey_applyLevel m pq h)
    rw [List.foldl_cons, List.foldl_cons, ih (applyLevel m pq) (nodup_keys_applyLevel m pq h),
      hstep]

theorem sortDesc_perm (m : List (ℚ × ℚ)) : List.Perm (sortDesc m) m :=
  List.perm_insertionSort keyGE m

theorem sortAsc_perm (m : List (ℚ × ℚ)) : List.Perm (sortAsc m) m :=
  List.perm_insertionSort keyLE m

theorem sorted_sortDesc (m : List (ℚ × ℚ)) : (sortDesc m).Sorted keyGE :=
  List.sorted_insertionSort keyGE m

theorem sorted_sortAsc (m : List (ℚ × ℚ)) : (sortAsc m).Sorted keyLE :=
  List.sorted_insertionSort keyLE m

theorem nodup_keys_sortDesc (m : List (ℚ × ℚ)) (h : (keys m).Nodup) :
    (keys (sortDesc m)).Nodup :=
  (((sortDesc_perm m).map Prod.fst).nodup_iff).mpr h

theorem nodup_keys_sortAsc (m : List (ℚ × ℚ)) (h : (keys m).Nodup) :
    (keys (sortAsc m)).Nodup :=
  (((sortAsc_perm m).map Prod.fst).nodup_iff).mpr h

theorem lookupKey_sortDesc (m : List (ℚ × ℚ)) (h : (keys m).Nodup) (x : ℚ) :
    lookupKey (sortDesc m) x = lookupKey m x :=
  lookupKey_perm (sortDesc_perm m) (nodup_keys_sortDesc m h) x

theorem lookupKey_sortAsc (m : List (ℚ × ℚ)) (h : (keys m).Nodup) (x : ℚ) :
    lookupKey (sortAsc m) x = lookupKey m x :=
  lookupKey_perm (sortAsc_perm m) (nodup_keys_sortAsc m h) x

theorem pairwise_gt_of_ge {l : List ℚ} (h1 : l.Pairwise fun a b => b ≤ a)
    (h2 : l.Nodup) : l.Pairwise (· > ·) := by
  induction l with
  | nil => exact List.Pairwise.nil
  | cons a t ih =>
    rw [List.pairwise_cons] at h1 ⊢
    rw [List.nodup_cons] at h2
    refine ⟨fun b hb => lt_of_le_of_ne (h1.1 b hb) fun heq => h2.1 (heq ▸ hb), ih h1.2 h2.2⟩

theorem pairwise_lt_of_le {l : List ℚ} (h1 : l.Pairwise fun a b => a ≤ b)
    (h2 : l.Nodup) : l.Pairwise (· < ·) := by
  induction l with
  | nil => exact List.Pairwise.nil
  | cons a t ih =>
    rw [List.pairwise_cons] at h1 ⊢
    rw [List.nodup_cons] at h2
    refine ⟨fun b hb => lt_of_le_of_ne (h1.1 b hb) ?_, ih h1.2 h2.2⟩
    exact fun heq => h2.1 (heq ▸ hb)

theorem sorted_gt_keys {m : List (ℚ × ℚ)} (hs : m.Sorted keyGE)
    (hn : (keys m).Nodup) : (keys m).Sorted (· > ·) := by
  have h1 : (keys m).Pairwise fun a b => b ≤ a := by
    rw [keys, List.pairwise_map]
    exact hs
  exact pairwise_gt_of_ge h1 hn

theorem sorted_lt_keys {m : List (ℚ × ℚ)} (hs : m.Sorted keyLE)
    (hn : (keys m).Nodup) : (keys m).Sorted (· < ·) := by
  have h1 : (keys m).Pairwise fun a b => a ≤ b := by
    rw [keys, List.pairwise_map]
    exact hs
  exact pairwise_lt_of_le h1 hn

theorem update_bids_frame (ob : OrderBook) (ps qs : List ℚ) :
    (ob.update_bids ps qs).offers = ob.offers ∧
    (ob.update_bids ps qs).security = ob.security ∧
    (ob.update_bids ps qs).last_update_time = ob.last_update_time := by
  rw [OrderBook.update_bids]
  split <;> exact ⟨rfl, rfl, rfl⟩

theorem update_offers_frame (ob : OrderBook) (ps qs : List ℚ) :
    (ob.update_offers ps qs).bids = ob.bids ∧
    (ob.update_offers ps qs).security = ob.security ∧
    (ob.update_offers ps qs).last_update_time = ob.last_update_time := by
  rw [OrderBook.update_offers]
  split <;> exact ⟨rfl, rfl, rfl⟩

theorem update_bids_eq (ob : OrderBook) (ps qs : List ℚ) (h : ¬∀ p ∈ ps, p = 0) :
    ob.update_bids ps qs =
      { ob with bids := sortDesc (List.foldl applyLevel ob.bids (ps.zip qs)) } := by
  rw [OrderBook.update_bids, if_neg h]

theorem update_offers_eq (ob : OrderBook) (ps qs : List ℚ) (h : ¬∀ p ∈ ps, p = 0) :
    ob.update_offers ps qs =
      { ob with offers := sortAsc (List.foldl applyLevel ob.offers (ps.zip qs)) } := by
  rw [OrderBook.update_offers, if_neg h]

theorem update_bids_inv (ob : OrderBook) (ps qs : List ℚ) (h : SideInvDesc ob.bids) :
    SideInvDesc (ob.update_bids ps qs).bids := by
  rw [OrderBook.update_bids]
  split
  · exact h
  · exact ⟨sorted_sortDesc _, nodup_keys_sortDesc _ (nodup_keys_foldl _ _ h.2)⟩

theorem update_offers_inv (ob : OrderBook) (ps qs : List ℚ) (h : SideInvAsc ob.offers) :
    SideInvAsc (ob.update_offers ps qs).offers := by
  rw [OrderBook.update_offers]
  split
  · exact h
  · exact ⟨sorted_sortAsc _, nodup_keys_sortAsc _ (nodup_keys_foldl _ _ h.2)⟩

theorem applyOp_inv (ob : OrderBook) (op : BookOp) (h1 : SideInvDesc ob.bids)
    (h2 : SideInvAsc ob.offers) :
    SideInvDesc (applyOp ob op).bids ∧ SideInvAsc (applyOp ob op).offers := by
  cases op with
  | updBids ps qs =>
    refine ⟨update_bids_inv ob ps qs h1, ?_⟩
    show SideInvAsc (ob.update_bids ps qs).offers
    rw [(update_bids_frame ob ps qs).1]
    exact h2
  | updOffers ps qs =>
    refine ⟨?_, update_offers_inv ob ps qs h2⟩
    show SideInvDesc (ob.update_offers ps qs).bids
    rw [(update_offers_frame ob ps qs).1]
    exact h1

theorem applyOps_inv (ob : OrderBook) (ops : List BookOp) (h1 : SideInvDesc ob.bids)
    (h2 : SideInvAsc ob.offers) :
    SideInvDesc (applyOps ob ops).bids ∧ SideInvAsc (applyOps ob ops).offers := by
  induction ops generalizing ob with
  | nil => exact ⟨h1, h2⟩
  | cons op rest ih =>
    obtain ⟨g1, g2⟩ := applyOp_inv ob op h1 h2
    exact ih (applyOp ob op) g1 g2

theorem foldl_applyLevel_single (m : List (ℚ × ℚ)) (P Q : ℚ) (hP : 0 < P) (hQ : 0 < Q) :
    List.foldl applyLevel m ([P, 0, 0, 0, 0].zip [Q, 0, 0, 0, 0]) = upsert m P Q := by
  show List.foldl applyLevel m [(P, Q), (0, 0), (0, 0), (0, 0), (0, 0)] = upsert m P Q
  have h0 : ∀ m' : List (ℚ × ℚ), applyLevel m' (0, 0) = m' := by
    intro m'
    rw [applyLevel]
    norm_num
  rw [List.foldl_cons, List.foldl_cons, List.foldl_cons, List.foldl_cons, List.foldl_cons,
    List.foldl_nil, h0, h0, h0, h0, applyLevel, if_pos ⟨hP, hQ⟩]

theorem upsert_self (m : List (ℚ × ℚ)) (P Q : ℚ) (h : lookupKey m P = some Q) :
    upsert m P Q = m := by
  induction m with
  | nil => simp [lookupKey] at h
  | cons kv rest ih =>
    obtain ⟨k, v⟩ := kv
    by_cases hk : k = P
    · rw [upsert, if_pos hk]
      rw [lookupKey, if_pos hk] at h
      rw [Option.some.inj h]
    · rw [upsert, if_neg hk]
      rw [lookupKey, if_neg hk] at h
      rw [ih h]

example : (OrderBook.init "X").update_bids [1, 0, 0, 0, 0] [5, 0, 0, 0, 0] =
    { security := "X", bids := [(1, 5)], offers := [], last_update_time := none } := by
  decide

example : ((OrderBook.init "X").update_bids [2, 1, 0, 0, 0] [5, 3, 0, 0, 0]).bids =
    [(2, 5), (1, 3)] := by decide

example : ((OrderBook.init "X").update_offers [2, 1, 0, 0, 0] [5, 3, 0, 0, 0]).offers =
    [(1, 3), (2, 5)] := by decide

example : update_order_book recNoTime (OrderBook.init "EURUSD") =
    ({ security := "EURUSD", bids := [(1, 2)], offers := [(3, 4)],
       last_update_time := none }, true) := by decide

theorem update_bids_single_bids (ob : OrderBook) (P Q : ℚ) (hP : 0 < P) (hQ : 0 < Q) :
    (ob.update_bids [P, 0, 0, 0, 0] [Q, 0, 0, 0, 0]).bids = sortDesc (upsert ob.bids P Q) := by
  have hguard : ¬∀ p ∈ [P, 0, 0, 0, 0], p = 0 :=
    fun hall => absurd (hall P (List.mem_cons_self _ _)) (ne_of_gt hP)
  rw [update_bids_eq ob _ _ hguard]
  show sortDesc (List.foldl applyLevel ob.bids ([P, 0, 0, 0, 0].zip [Q, 0, 0, 0, 0])) = _
  rw [foldl_applyLevel_single ob.bids P Q hP hQ]

theorem update_offers_single_offers (ob : OrderBook) (P Q : ℚ) (hP : 0 < P) (hQ : 0 < Q) :
    (ob.update_offers [P, 0, 0, 0, 0] [Q, 0, 0, 0, 0]).offers = sortAsc (upsert ob.offers P Q) := by
  have hguard : ¬∀ p ∈ [P, 0, 0, 0, 0], p = 0 :=
    fun hall => absurd (hall P (List.mem_cons_self _ _)) (ne_of_gt hP)
  rw [update_offers_eq ob _ _ hguard]
  show sortAsc (List.foldl applyLevel ob.offers ([P, 0, 0, 0, 0].zip [Q, 0, 0, 0, 0])) = _
  rw [foldl_applyLevel_single ob.offers P Q hP hQ]

/-- C1: on a non-all-zero length-5 snapshot, `update_bids` (resp.
`update_offers`) reconciles its side, viewed as a price→quantity map, index
by index in order: positive price and quantity set the level, positive price
with zero quantity remove it (no-op when absent), zero price is skipped. -/
theorem spec_c1 (ob : OrderBook) (ps qs : List ℚ)
    (hlp : ps.length = 5) (hlq : qs.length = 5) (hnz : ¬∀ p ∈ ps, p = 0)
    (hb : (keys ob.bids).Nodup) (ho : (keys ob.offers).Nodup) (x : ℚ) :
    lookupKey (ob.update_bids ps qs).bids x =
      List.foldl specReconcileStep (lookupKey ob.bids) (ps.zip qs) x ∧
    lookupKey (ob.update_offers ps qs).offers x =
      List.foldl specReconcileStep (lookupKey ob.offers) (ps.zip qs) x := by
  constructor
  · rw [update_bids_eq ob ps qs hnz]
    show lookupKey (sortDesc (List.foldl applyLevel ob.bids (ps.zip qs))) x = _
    rw [lookupKey_sortDesc _ (nodup_keys_foldl _ _ hb) x]
    exact lookupKey_foldl _ _ hb x
  · rw [update_offers_eq ob ps qs hnz]
    show lookupKey (sortAsc (List.foldl applyLevel ob.offers (ps.zip qs))) x = _
    rw [lookupKey_sortAsc _ (nodup_keys_foldl _ _ ho) x]
    exact lookupKey_foldl _ _ ho x

theorem spec_c1_witness :
    ([(1 : ℚ), 2, 0, -1, 3]).length = 5 ∧ ([(10 : ℚ), 0, 9, 9, 8]).length = 5 ∧
    ¬(∀ p ∈ [(1 : ℚ), 2, 0, -1, 3], p = 0) ∧
    (keys sampleBook.bids).Nodup ∧ (keys sampleBook.offers).Nodup ∧
    (lookupKey (sampleBook.update_bids [1, 2, 0, -1, 3] [10, 0, 9, 9, 8]).bids 2 =
      List.foldl specReconcileStep (lookupKey sampleBook.bids)
        ([(1 : ℚ), 2, 0, -1, 3].zip [(10 : ℚ), 0, 9, 9, 8]) 2 ∧
     lookupKey (sampleBook.update_offers [1, 2, 0, -1, 3] [10, 0, 9, 9, 8]).offers 2 =
      List.foldl specReconcileStep (lookupKey sampleBook.offers)
        ([(1 : ℚ), 2, 0, -1, 3].zip [(10 : ℚ), 0, 9, 9, 8]) 2) :=
  ⟨by decide, by decide, by decide, by decide, by decide,
   spec_c1 sampleBook [1, 2, 0, -1, 3] [10, 0, 9, 9, 8]
     (by decide) (by decide) (by decide) (by decide) (by decide) 2⟩

/-- C2: after any sequence of `update_bids` and `update_offers` calls on a
fresh book, the bid keys are strictly descending, the offer keys strictly
ascending, each price appears at most once per side, and the best bid and
offer are the first keys of their sides. -/
theorem spec_c2 (s : String) (ops : List BookOp) :
    (keys (applyOps (OrderBook.init s) ops).bids).Sorted (· > ·) ∧
    (keys (applyOps (OrderBook.init s) ops).offers).Sorted (· < ·) ∧
    (keys (applyOps (OrderBook.init s) ops).bids).Nodup ∧
    (keys (applyOps (OrderBook.init s) ops).offers).Nodup ∧
    (applyOps (OrderBook.init s) ops).get_best_bid =
      (applyOps (OrderBook.init s) ops).bids.head? ∧
    (applyOps (OrderBook.init s) ops).get_best_offer =
      (applyOps (OrderBook.init s) ops).offers.head? := by
  obtain ⟨⟨hs1, hn1⟩, hs2, hn2⟩ := applyOps_inv (OrderBook.init s) ops
    ⟨List.sorted_nil, List.nodup_nil⟩ ⟨List.sorted_nil, List.nodup_nil⟩
  exact ⟨sorted_gt_keys hs1 hn1, sorted_lt_keys hs2 hn2, hn1, hn2, rfl, rfl⟩

/-- C3: a call with all five prices equal to zero returns the book unchanged,
whatever the quantities and the prior state. -/
theorem spec_c3 (ob : OrderBook) (qs : List ℚ) :
    ob.update_bids [0, 0, 0, 0, 0] qs = ob ∧
    ob.update_offers [0, 0, 0, 0, 0] qs = ob := by
  constructor
  · rw [OrderBook.update_bids, if_pos (by simp)]
  · rw [OrderBook.update_offers, if_pos (by simp)]

/-- C4 (claim as stated is violated by the code): on a record whose twenty
numeric fields extract but whose time field is missing, `update_order_book`
raises and yet has already applied both side updates, so the book is not
left unchanged; only `last_update_time` is untouched. -/
theorem spec_c4_code_bug :
    (update_order_book recNoTime (OrderBook.init "EURUSD")).2 = true ∧
    (update_order_book recNoTime (OrderBook.init "EURUSD")).1.bids = [(1, 2)] ∧
    (update_order_book recNoTime (OrderBook.init "EURUSD")).1.offers = [(3, 4)] ∧
    (OrderBook.init "EURUSD").bids = [] ∧ (OrderBook.init "EURUSD").offers = [] ∧
    (update_order_book recNoTime (OrderBook.init "EURUSD")).1.last_update_time = none := by
  refine ⟨?_, ?_, ?_, rfl, rfl, ?_⟩ <;> decide

/-- C5: `get_spread` is the best offer price minus the best bid price when
both sides hold a level, and the none-value when either side is empty. -/
theorem spec_c5 (ob : OrderBook) :
    (ob.get_spread = none ↔ ob.bids = [] ∨ ob.offers = []) ∧
    ob.get_spread = (match ob.bids.head?, ob.offers.head? with
      | some bb, some bo => some (bo.1 - bb.1)
      | _, _ => none) := by
  constructor
  · cases hb : ob.bids with
    | nil => simp [OrderBook.get_spread, OrderBook.get_best_bid, hb]
    | cons b tb =>
      cases ho : ob.offers with
      | nil =>
        simp [OrderBook.get_spread, OrderBook.get_best_bid, OrderBook.get_best_offer, hb, ho]
      | cons o t2 =>
        simp [OrderBook.get_spread, OrderBook.get_best_bid, OrderBook.get_best_offer, hb, ho]
  · rfl

/-- C6: when every required field of the record extracts, `update_order_book`
reports no error and overwrites `last_update_time` with the record's time,
even when both side updates were no-ops. -/
theorem spec_c6 (r : Record) (ob : OrderBook) (bp bq ofp ofq : List ℚ) (t : ℚ)
    (h1 : extract5 r.bi_price = some bp) (h2 : extract5 r.bi_qty = some bq)
    (h3 : extract5 r.of_price = some ofp) (h4 : extract5 r.of_qty = some ofq)
    (h5 : r.time = some t) :
    (update_order_book r ob).2 = false ∧
    (update_order_book r ob).1.last_update_time = some t := by
  rw [update_order_book, h1, h2, h3, h4, h5]
  exact ⟨rfl, rfl⟩

theorem spec_c6_witness :
    extract5 recZero.bi_price = some [0, 0, 0, 0, 0] ∧
    extract5 recZero.bi_qty = some [0, 0, 0, 0, 0] ∧
    extract5 recZero.of_price = some [0, 0, 0, 0, 0] ∧
    extract5 recZero.of_qty = some [0, 0, 0, 0, 0] ∧
    recZero.time = some 7 ∧
    ((update_order_book recZero sampleBook).2 = false ∧
     (update_order_book recZero sampleBook).1.last_update_time = some 7) :=
  ⟨rfl, rfl, rfl, rfl, rfl,
   spec_c6 recZero sampleBook _ _ _ _ 7 rfl rfl rfl rfl rfl⟩

/-- C7: `update_bids` never modifies the offer side, `update_offers` never
modifies the bid side, and neither modifies the security identifier or
`last_update_time`. -/
theorem spec_c7 (ob : OrderBook) (ps qs : List ℚ) :
    (ob.update_bids ps qs).offers = ob.offers ∧
    (ob.update_bids ps qs).security = ob.security ∧
    (ob.update_bids ps qs).last_update_time = ob.last_update_time ∧
    (ob.update_offers ps qs).bids = ob.bids ∧
    (ob.update_offers ps qs).security = ob.security ∧
    (ob.update_offers ps qs).last_update_time = ob.last_update_time := by
  obtain ⟨a1, a2, a3⟩ := update_bids_frame ob ps qs
  obtain ⟨b1, b2, b3⟩ := update_offers_frame ob ps qs
  exact ⟨a1, a2, a3, b1, b2, b3⟩

/-- C9: applying the same positive (price, quantity) pair twice to a side
yields the same side as applying it once; exactly one level exists at that
price and it holds the latest quantity. -/
theorem spec_c9 (ob : OrderBook) (P Q : ℚ) (hP : 0 < P) (hQ : 0 < Q)
    (hb : (keys ob.bids).Nodup) (ho : (keys ob.offers).Nodup) :
    ((ob.update_bids [P, 0, 0, 0, 0] [Q, 0, 0, 0, 0]).update_bids
        [P, 0, 0, 0, 0] [Q, 0, 0, 0, 0]).bids =
      (ob.update_bids [P, 0, 0, 0, 0] [Q, 0, 0, 0, 0]).bids ∧
    (keys (ob.update_bids [P, 0, 0, 0, 0] [Q, 0, 0, 0, 0]).bids).count P = 1 ∧
    lookupKey (ob.update_bids [P, 0, 0, 0, 0] [Q, 0, 0, 0, 0]).bids P = some Q ∧
    ((ob.update_offers [P, 0, 0, 0, 0] [Q, 0, 0, 0, 0]).update_offers
        [P, 0, 0, 0, 0] [Q, 0, 0, 0, 0]).offers =
      (ob.update_offers [P, 0, 0, 0, 0] [Q, 0, 0, 0, 0]).offers ∧
    (keys (ob.update_offers [P, 0, 0, 0, 0] [Q, 0, 0, 0, 0]).offers).count P = 1 ∧
    lookupKey (ob.update_offers [P, 0, 0, 0, 0] [Q, 0, 0, 0, 0]).offers P = some Q := by
  have e1 := update_bids_single_bids ob P Q hP hQ
  have hlook1 : lookupKey (ob.update_bids [P, 0, 0, 0, 0] [Q, 0, 0, 0, 0]).bids P = some Q := by
    rw [e1, lookupKey_sortDesc _ (nodup_keys_upsert _ _ _ hb), lookupKey_upsert, if_pos rfl]
  have hsorted1 : ((ob.update_bids [P, 0, 0, 0, 0] [Q, 0, 0, 0, 0]).bids).Sorted keyGE := by
    rw [e1]
    exact sorted_sortDesc _
  have e2 := update_offers_single_offers ob P Q hP hQ
  have hlook2 : lookupKey (ob.update_offers [P, 0, 0, 0, 0] [Q, 0, 0, 0, 0]).offers P
      = some Q := by
    rw [e2, lookupKey_sortAsc _ (nodup_keys_upsert _ _ _ ho), lookupKey_upsert, if_pos rfl]
  have hsorted2 : ((ob.update_offers [P, 0, 0, 0, 0] [Q, 0, 0, 0, 0]).offers).Sorted keyLE := by
    rw [e2]
    exact sorted_sortAsc _
  refine ⟨?_, ?_, hlook1, ?_, ?_, hlook2⟩
  · rw [update_bids_single_bids _ P Q hP hQ, upsert_self _ P Q hlook1]
    exact hsorted1.insertionSort_eq
  · have hperm : List.Perm (keys (ob.update_bids [P, 0, 0, 0, 0] [Q, 0, 0, 0, 0]).bids)
        (keys (upsert ob.bids P Q)) := by
      rw [e1]
      exact (sortDesc_perm _).map Prod.fst
    rw [hperm.count_eq]
    exact List.count_eq_one_of_mem (nodup_keys_upsert _ _ _ hb)
      ((mem_keys_upsert _ _ _ _).mpr (Or.inl rfl))
  · rw [update_offers_single_offers _ P Q hP hQ, upsert_self _ P Q hlook2]
    exact hsorted2.insertionSort_eq
  · have hperm : List.Perm (keys (ob.update_offers [P, 0, 0, 0, 0] [Q, 0, 0, 0, 0]).offers)
        (keys (upsert ob.offers P Q)) := by
      rw [e2]
      exact (sortAsc_perm _).map Prod.fst
    rw [hperm.count_eq]
    exact List.count_eq_one_of_mem (nodup_keys_upsert _ _ _ ho)
      ((mem_keys_upsert _ _ _ _).mpr (Or.inl rfl))

theorem spec_c9_witness :
    (0 : ℚ) < 1 ∧ (0 : ℚ) < 4 ∧
    (keys sampleBook.bids).Nodup ∧ (keys sampleBook.offers).Nodup ∧
    (((sampleBook.update_bids [1, 0, 0, 0, 0] [4, 0, 0, 0, 0]).update_bids
        [1, 0, 0, 0, 0] [4, 0, 0, 0, 0]).bids =
      (sampleBook.update_bids [1, 0, 0, 0, 0] [4, 0, 0, 0, 0]).bids ∧
     (keys (sampleBook.update_bids [1, 0, 0, 0, 0] [4, 0, 0, 0, 0]).bids).count 1 = 1 ∧
     lookupKey (sampleBook.update_bids [1, 0, 0, 0, 0] [4, 0, 0, 0, 0]).bids 1 = some 4 ∧
     ((sampleBook.update_offers [1, 0, 0, 0, 0] [4, 0, 0, 0, 0]).update_offers
        [1, 0, 0, 0, 0] [4, 0, 0, 0, 0]).offers =
      (sampleBook.update_offers [1, 0, 0, 0, 0] [4, 0, 0, 0, 0]).offers ∧
     (keys (sampleBook.update_offers [1, 0, 0, 0, 0] [4, 0, 0, 0, 0]).offers).count 1 = 1 ∧
     lookupKey (sampleBook.update_offers [1, 0, 0, 0, 0] [4, 0, 0, 0, 0]).offers 1 = some 4) :=
  ⟨by decide, by decide, by decide, by decide,
   spec_c9 sampleBook 1 4 (by decide) (by decide) (by decide) (by decide)⟩

/-- C10: the side updates are total: an index with a negative price, or a
positive price with a negative quantity, leaves the mapping unchanged, and a
prices array containing a negative value is not absorbed by the all-zero
guard — the update proceeds to reconcile and re-sort. -/
theorem spec_c10 (m : List (ℚ × ℚ)) (p q p₂ q₂ : ℚ) (ob : OrderBook) (ps qs : List ℚ) :
    (p < 0 → applyLevel m (p, q) = m) ∧
    (0 < p₂ → q₂ < 0 → applyLevel m (p₂, q₂) = m) ∧
    ((∃ x ∈ ps, x < 0) →
      ob.update_bids ps qs =
        { ob with bids := sortDesc (List.foldl applyLevel ob.bids (ps.zip qs)) } ∧
      ob.update_offers ps qs =
        { ob with offers := sortAsc (List.foldl applyLevel ob.offers (ps.zip qs)) }) := by
  refine ⟨fun hp => ?_, fun hp hq => ?_, fun hex => ?_⟩
  · rw [applyLevel, if_neg (fun hc => absurd hc.1 (not_lt.mpr hp.le)),
      if_neg (fun hc => absurd hc.1 (not_lt.mpr hp.le))]
  · rw [applyLevel, if_neg (fun hc => absurd hc.2 (not_lt.mpr hq.le)),
      if_neg (fun hc => absurd hc.2 (ne_of_lt hq))]
  · obtain ⟨x, hxmem, hxneg⟩ := hex
    have hguard : ¬∀ y ∈ ps, y = 0 := fun hall => absurd (hall x hxmem) (ne_of_lt hxneg)
    exact ⟨update_bids_eq ob ps qs hguard, update_offers_eq ob ps qs hguard⟩

theorem spec_c10_witness :
    ((-1 : ℚ) < 0) ∧ ((0 : ℚ) < 4) ∧ ((-2 : ℚ) < 0) ∧
    (∃ x ∈ [(-1 : ℚ), 0, 0, 0, 0], x < 0) ∧
    applyLevel [((2 : ℚ), (3 : ℚ))] (-1, 5) = [(2, 3)] ∧
    applyLevel [((2 : ℚ), (3 : ℚ))] (4, -2) = [(2, 3)] ∧
    (sampleBook.update_bids [-1, 0, 0, 0, 0] [5, 0, 0, 0, 0] =
      { sampleBook with bids := sortDesc (List.foldl applyLevel sampleBook.bids
          ([(-1 : ℚ), 0, 0, 0, 0].zip [(5 : ℚ), 0, 0, 0, 0])) } ∧
     sampleBook.update_offers [-1, 0, 0, 0, 0] [5, 0, 0, 0, 0] =
      { sampleBook with offers := sortAsc (List.foldl applyLevel sampleBook.offers
          ([(-1 : ℚ), 0, 0, 0, 0].zip [(5 : ℚ), 0, 0, 0, 0])) }) :=
  have h := spec_c10 [((2 : ℚ), (3 : ℚ))] (-1) 5 4 (-2) sampleBook
    [-1, 0, 0, 0, 0] [5, 0, 0, 0, 0]
  ⟨by decide, by decide, by decide, by decide,
   h.1 (by decide), h.2.1 (by decide) (by decide), h.2.2 (by decide)⟩

end FxArb
